import Mathlib

/-!
# Design-Tree Simplification & Global-Variable Extraction Engine

A shallow embedding of the Figma-Context-MCP repository's core:
the style/value interner, the depth-limited tree walker with
visibility/kind filtering and flattening, the metadata extractor, the
result assembler, and the `FigmaService` request/endpoint construction
from `src/services/figma.ts`.

The simplification engine itself (`simplify-node-response.ts`) is not in
the available sources; its definitions below are modelled from the
specification and are marked as such in their doc comments.  The
`FigmaService` definitions are translated directly from
`src/services/figma.ts`, and the tool-handler destructuring from the
server registration file.
-/

set_option maxHeartbeats 1000000

namespace FigmaMCP

/-- Modelled from the spec: a style-bearing value as extracted from a
RawNode property (fill, stroke, effect, typographic rule, layout box, …).
Numbers are taken at the deployment's fixed precision (the spec leaves
the exact rounding precision open), strings cover enum-like fields,
`field` is one named sub-field of an object value, `obj` an object whose
fields are order-independent for hashing, `listv` an ordered list (e.g.
multiple fills keep their order). -/
inductive SValue where
  | num : Int → SValue
  | str : String → SValue
  | field : String → SValue → SValue
  | obj : List SValue → SValue
  | listv : List SValue → SValue
  deriving Repr

mutual

/-- Structural equality test on style values. -/
def SValue.deq : (a b : SValue) → Decidable (a = b)
  | .num a, .num b =>
    match decEq a b with
    | isTrue h => isTrue (by rw [h])
    | isFalse h => isFalse (by intro hh; injection hh; contradiction)
  | .str a, .str b =>
    match decEq a b with
    | isTrue h => isTrue (by rw [h])
    | isFalse h => isFalse (by intro hh; injection hh; contradiction)
  | .field p v, .field q w =>
    match decEq p q, SValue.deq v w with
    | isTrue h1, isTrue h2 => isTrue (by rw [h1, h2])
    | isFalse h1, _ => isFalse (by intro hh; injection hh; contradiction)
    | _, isFalse h2 => isFalse (by intro hh; injection hh; contradiction)
  | .obj a, .obj b =>
    match SValue.deqList a b with
    | isTrue h => isTrue (by rw [h])
    | isFalse h => isFalse (by intro hh; injection hh; contradiction)
  | .listv a, .listv b =>
    match SValue.deqList a b with
    | isTrue h => isTrue (by rw [h])
    | isFalse h => isFalse (by intro hh; injection hh; contradiction)
  | .num _, .str _ => isFalse (by intro h; exact SValue.noConfusion h)
  | .num _, .field _ _ => isFalse (by intro h; exact SValue.noConfusion h)
  | .num _, .obj _ => isFalse (by intro h; exact SValue.noConfusion h)
  | .num _, .listv _ => isFalse (by intro h; exact SValue.noConfusion h)
  | .str _, .num _ => isFalse (by intro h; exact SValue.noConfusion h)
  | .str _, .field _ _ => isFalse (by intro h; exact SValue.noConfusion h)
  | .str _, .obj _ => isFalse (by intro h; exact SValue.noConfusion h)
  | .str _, .listv _ => isFalse (by intro h; exact SValue.noConfusion h)
  | .field _ _, .num _ => isFalse (by intro h; exact SValue.noConfusion h)
  | .field _ _, .str _ => isFalse (by intro h; exact SValue.noConfusion h)
  | .field _ _, .obj _ => isFalse (by intro h; exact SValue.noConfusion h)
  | .field _ _, .listv _ => isFalse (by intro h; exact SValue.noConfusion h)
  | .obj _, .num _ => isFalse (by intro h; exact SValue.noConfusion h)
  | .obj _, .str _ => isFalse (by intro h; exact SValue.noConfusion h)
  | .obj _, .field _ _ => isFalse (by intro h; exact SValue.noConfusion h)
  | .obj _, .listv _ => isFalse (by intro h; exact SValue.noConfusion h)
  | .listv _, .num _ => isFalse (by intro h; exact SValue.noConfusion h)
  | .listv _, .str _ => isFalse (by intro h; exact SValue.noConfusion h)
  | .listv _, .field _ _ => isFalse (by intro h; exact SValue.noConfusion h)
  | .listv _, .obj _ => isFalse (by intro h; exact SValue.noConfusion h)

/-- Structural equality test on lists of style values. -/
def SValue.deqList : (a b : List SValue) → Decidable (a = b)
  | [], [] => isTrue rfl
  | [], _ :: _ => isFalse (by intro h; exact List.noConfusion h)
  | _ :: _, [] => isFalse (by intro h; exact List.noConfusion h)
  | a :: as, b :: bs =>
    match SValue.deq a b, SValue.deqList as bs with
    | isTrue h1, isTrue h2 => isTrue (by rw [h1, h2])
    | isFalse h1, _ => isFalse (by intro hh; injection hh; contradiction)
    | _, isFalse h2 => isFalse (by intro hh; injection hh; contradiction)

end

instance : DecidableEq SValue := SValue.deq

/-- Sort key used when canonicalizing the fields of an object value:
fields are identified by their name. -/
def fieldName : SValue → String
  | .field p _ => p
  | _ => ""

/-- Insertion of a value into a list of fields sorted by field name. -/
def insertField (v : SValue) : List SValue → List SValue
  | [] => [v]
  | w :: ws =>
    if fieldName v ≤ fieldName w then v :: w :: ws
    else w :: insertField v ws

/-- Insertion sort of object fields by field name. -/
def sortFields : List SValue → List SValue
  | [] => []
  | v :: vs => insertField v (sortFields vs)

mutual

/-- Modelled from the spec: normalization preceding hashing — fields of
an object value are sorted (order-independent for hashing) while lists
keep their order; numeric components are already at fixed precision. -/
def normalize : SValue → SValue
  | .num n => .num n
  | .str s => .str s
  | .field p v => .field p (normalize v)
  | .obj fs => .obj (sortFields (normalizeList fs))
  | .listv vs => .listv (normalizeList vs)

/-- Normalization mapped over a list of values. -/
def normalizeList : List SValue → List SValue
  | [] => []
  | v :: vs => normalize v :: normalizeList vs

end

/-- Modelled from the spec: a StyleKey is an opaque, deterministic
identifier derived from the normalized content of a style-bearing
value. -/
abbrev StyleKey := String

/-- Modelled from the spec: the GlobalVariableTable maps StyleKey to
canonical style value, insertion-ordered by first occurrence. -/
abbrev GlobalVariableTable := List (StyleKey × SValue)

mutual

/-- Content-derived serialization of a normalized style value, used to
mint a fresh StyleKey (the spec asks for a deterministic function of the
normalized content, e.g. a content hash). -/
def encodeVal : SValue → String
  | .num n => "n" ++ toString n
  | .str s => "s:" ++ s
  | .field p v => "f(" ++ p ++ ":" ++ encodeVal v ++ ")"
  | .obj fs => "o(" ++ encodeList fs ++ ")"
  | .listv vs => "l(" ++ encodeList vs ++ ")"

/-- Serialization of a list of normalized style values. -/
def encodeList : List SValue → String
  | [] => ""
  | v :: vs => encodeVal v ++ "," ++ encodeList vs

end

/-- Modelled from the spec: minting a new key as a deterministic
function of the normalized content. -/
def mintKey (nv : SValue) : StyleKey := encodeVal nv

/-- Modelled from the spec: `intern(value) -> StyleKey` on the
per-run GlobalVariableTable.  Normalization precedes the lookup; if an
equal normalized value was interned earlier in the same run the existing
key is returned and the table is unchanged; otherwise a new key is
minted and the canonical value appended (insertion order by first
occurrence). -/
def internValue (t : GlobalVariableTable) (v : SValue) : StyleKey × GlobalVariableTable :=
  match t.find? (fun e => decide (e.2 = normalize v)) with
  | some e => (e.1, t)
  | none => (mintKey (normalize v), t ++ [(mintKey (normalize v), normalize v)])

/-- Modelled from the spec: interning every style-bearing property of a
node in source order, producing the property-name-to-StyleKey mapping
stored on the simplified node. -/
def internProps (props : List (String × SValue)) (t : GlobalVariableTable) :
    List (String × StyleKey) × GlobalVariableTable :=
  match props with
  | [] => ([], t)
  | (p, v) :: rest =>
    let (k, t1) := internValue t v
    let (refs, t2) := internProps rest t1
    ((p, k) :: refs, t2)

/-- Modelled from the spec: a RawNode as delivered by the source API —
id, human name, node kind, an explicit visibility flag, the
style-bearing properties (name/value pairs, values embedded inline and
possibly repeated verbatim across nodes), and the ordered children. -/
inductive RawNode where
  | mk : (id name type : String) → (visible : Bool) →
      (styles : List (String × SValue)) → (children : List RawNode) → RawNode

/-- Node id of a RawNode. -/
def RawNode.id : RawNode → String
  | .mk i _ _ _ _ _ => i

/-- Human name of a RawNode. -/
def RawNode.name : RawNode → String
  | .mk _ nm _ _ _ _ => nm

/-- Node kind of a RawNode. -/
def RawNode.type : RawNode → String
  | .mk _ _ ty _ _ _ => ty

/-- Visibility flag of a RawNode. -/
def RawNode.visible : RawNode → Bool
  | .mk _ _ _ vis _ _ => vis

/-- Style-bearing properties of a RawNode. -/
def RawNode.styles : RawNode → List (String × SValue)
  | .mk _ _ _ _ props _ => props

/-- Ordered children of a RawNode. -/
def RawNode.children : RawNode → List RawNode
  | .mk _ _ _ _ _ cs => cs

/-- Modelled from the spec: a SimplifiedNode — id, name, kind inherited
from the RawNode, a mapping from property name to StyleKey for every
style-bearing property (references, never inline copies), and the
ordered simplified children. -/
inductive SimplifiedNode where
  | mk : (id name type : String) → (styleRefs : List (String × StyleKey)) →
      (children : List SimplifiedNode) → SimplifiedNode

/-- Node id of a SimplifiedNode. -/
def SimplifiedNode.id : SimplifiedNode → String
  | .mk i _ _ _ _ => i

/-- Name of a SimplifiedNode. -/
def SimplifiedNode.name : SimplifiedNode → String
  | .mk _ nm _ _ _ => nm

/-- Node kind of a SimplifiedNode. -/
def SimplifiedNode.type : SimplifiedNode → String
  | .mk _ _ ty _ _ => ty

/-- The property-name-to-StyleKey mapping of a SimplifiedNode. -/
def SimplifiedNode.styleRefs : SimplifiedNode → List (String × StyleKey)
  | .mk _ _ _ refs _ => refs

/-- Ordered children of a SimplifiedNode. -/
def SimplifiedNode.children : SimplifiedNode → List SimplifiedNode
  | .mk _ _ _ _ cs => cs

/-- Modelled from the spec: node kinds that carry no visual/semantic
payload are skipped (with their children flattened into the parent).
The spec does not fix the exact kind list; the model uses a
representative one. -/
def irrelevantKind (ty : String) : Bool := ty == "SLICE"

/-- A node survives filtering when it is visible and its kind carries
visual/semantic payload. -/
def keepNode (n : RawNode) : Bool := n.visible && !irrelevantKind n.type

/-- One raw tree level consumes one unit of the remaining depth budget;
`none` means no bound was supplied. -/
def decrBudget : Option Nat → Option Nat
  | none => none
  | some n => some (n - 1)

/-- Remaining-level budget corresponding to a caller-supplied maxDepth:
with maxDepth `d` the requested root sits at raw depth 0 and nodes at
raw depth up to `d` are admitted, hence `d + 1` levels. -/
def depthBudget : Option Nat → Option Nat
  | none => none
  | some d => some (d + 1)

mutual

/-- Modelled from the spec: the Node Simplifier — copies id, name, kind
verbatim, interns every style-bearing property present on the node in
source order storing only the returned StyleKey, and recurses into the
children via the Walker with one level of depth budget consumed,
attaching results in source order. -/
def simplifyNode (b : Option Nat) : RawNode → GlobalVariableTable →
    SimplifiedNode × GlobalVariableTable
  | .mk i nm ty _ props cs, t =>
    let (refs, t1) := internProps props t
    let (ss, t2) := walkChildren (decrBudget b) cs t1
    (.mk i nm ty refs ss, t2)

/-- Modelled from the spec: the Depth-Limited Tree Walker over one
child sequence — pre-order, depth-first, children in source order.
When the depth budget is exhausted the nodes are omitted entirely;
an invisible or payload-free node is skipped and its children are
promoted into the parent's child sequence in place (flattening),
consuming one further level of budget for the promoted subtrees. -/
def walkChildren (b : Option Nat) : List RawNode → GlobalVariableTable →
    List SimplifiedNode × GlobalVariableTable
  | ns, t =>
    match b, ns with
    | some 0, _ => ([], t)
    | _, [] => ([], t)
    | _, RawNode.mk i nm ty vis props cs :: rest =>
      if vis && !irrelevantKind ty then
        let (s, t1) := simplifyNode b (.mk i nm ty vis props cs) t
        let (ss, t2) := walkChildren b rest t1
        (s :: ss, t2)
      else
        let (promoted, t1) := walkChildren (decrBudget b) cs t
        let (ss, t2) := walkChildren b rest t1
        (promoted ++ ss, t2)

end

mutual

/-- All nodes of a simplified tree, the root first (pre-order). -/
def collectNode : SimplifiedNode → List SimplifiedNode
  | .mk i nm ty refs cs => .mk i nm ty refs cs :: collectForest cs

/-- All nodes of a simplified forest in pre-order. -/
def collectForest : List SimplifiedNode → List SimplifiedNode
  | [] => []
  | s :: ss => collectNode s ++ collectForest ss

end

mutual

/-- All nodes of a raw tree paired with their raw depth, the root at
the given depth and children one level deeper. -/
def rawEnum : RawNode → Nat → List (RawNode × Nat)
  | .mk i nm ty vis props cs, q =>
    (.mk i nm ty vis props cs, q) :: rawEnumList cs (q + 1)

/-- All nodes of a raw forest paired with their raw depth. -/
def rawEnumList : List RawNode → Nat → List (RawNode × Nat)
  | [], _ => []
  | r :: rs, q => rawEnum r q ++ rawEnumList rs q

end

mutual

/-- All nodes of a raw tree, the root first. -/
def rawCollect : RawNode → List RawNode
  | .mk i nm ty vis props cs => .mk i nm ty vis props cs :: rawCollectList cs

/-- All nodes of a raw forest. -/
def rawCollectList : List RawNode → List RawNode
  | [] => []
  | r :: rs => rawCollect r ++ rawCollectList rs

end

/-- Modelled from the spec: the document-level metadata — name,
last-modified timestamp, thumbnail — pulled independently of tree
depth. -/
structure Metadata where
  name : String
  lastModified : String
  thumbnailUrl : String
  deriving DecidableEq, Repr

/-- Modelled from the spec: the top-level output — document metadata,
the root forest of SimplifiedNode, and the finalized
GlobalVariableTable. -/
structure SimplifiedDesign where
  name : String
  lastModified : String
  thumbnailUrl : String
  nodes : List SimplifiedNode
  globalVars : GlobalVariableTable

/-- Modelled from the spec: the Result Assembler,
`assemble(metadata, forest, table) -> SimplifiedDesign` — a pure
combination with no further transformation. -/
def assemble (m : Metadata) (forest : List SimplifiedNode)
    (t : GlobalVariableTable) : SimplifiedDesign :=
  { name := m.name, lastModified := m.lastModified,
    thumbnailUrl := m.thumbnailUrl, nodes := forest, globalVars := t }

/-- The metadata part of an assembled design, as destructured at the
external boundary (`const { nodes, globalVars, ...metadata } = file` in
the get_figma_data handler). -/
def metadataOf (d : SimplifiedDesign) : Metadata :=
  { name := d.name, lastModified := d.lastModified,
    thumbnailUrl := d.thumbnailUrl }

/-- The `{metadata, nodes, globalVars}` split performed by the
get_figma_data handler before serialization. -/
def splitDesign (d : SimplifiedDesign) :
    Metadata × List SimplifiedNode × GlobalVariableTable :=
  (metadataOf d, d.nodes, d.globalVars)

/-- Modelled from the spec: a whole-file raw response — document-level
fields plus the document root node; the root may be absent when the raw
input is not traversable at all. -/
structure FileResponse where
  name : String
  lastModified : String
  thumbnailUrl : String
  document : Option RawNode

/-- Modelled from the spec: a node-scoped raw response — the containing
document's metadata plus one or more requested subtrees keyed by node
id. -/
structure NodesResponse where
  name : String
  lastModified : String
  thumbnailUrl : String
  nodes : List (String × RawNode)

/-- Modelled from the spec: simplification of a whole-file response —
metadata extracted from the document-level fields, the tree walked from
the document root with the caller-supplied depth bound, one fresh
GlobalVariableTable per run; fails fast with a single terminal error
when the root is absent, and otherwise never aborts. -/
def parseFileResponse (maxDepth : Option Nat) (resp : FileResponse) :
    Except String SimplifiedDesign :=
  match resp.document with
  | none => .error "raw input is not traversable: document root is absent"
  | some doc =>
    let (forest, t) := walkChildren (depthBudget maxDepth) [doc] []
    .ok (assemble ⟨resp.name, resp.lastModified, resp.thumbnailUrl⟩ forest t)

/-- Modelled from the spec: simplification of a node-scoped response —
metadata reflects the containing document, the forest roots are the
requested subtrees in request order, one fresh GlobalVariableTable per
run; fails fast when no requested node is present. -/
def parseNodesResponse (maxDepth : Option Nat) (resp : NodesResponse) :
    Except String SimplifiedDesign :=
  match resp.nodes with
  | [] => .error "raw input is not traversable: no requested node is present"
  | entries =>
    let (forest, t) := walkChildren (depthBudget maxDepth) (entries.map Prod.snd) []
    .ok (assemble ⟨resp.name, resp.lastModified, resp.thumbnailUrl⟩ forest t)

/-- Lookup of the StyleKey stored for a normalized value in the
GlobalVariableTable (first occurrence). -/
def lookupVal (t : GlobalVariableTable) (nv : SValue) : Option StyleKey :=
  (t.find? (fun e => decide (e.2 = nv))).map Prod.fst

/-- Number of entries of the GlobalVariableTable holding the given
normalized value. -/
def countEntries (t : GlobalVariableTable) (nv : SValue) : Nat :=
  t.countP (fun e => decide (e.2 = nv))

/-- Well-formedness of a GlobalVariableTable: no two entries hold the
same canonical value (each value is stored once — the state every run
starts from, with the empty table, and preserves). -/
def WFTable (t : GlobalVariableTable) : Prop :=
  t.Pairwise (fun a b => a.2 ≠ b.2)

/-- A sequence of intern calls, as issued over the course of one
simplification run. -/
def internSeq (t : GlobalVariableTable) (vs : List SValue) : GlobalVariableTable :=
  vs.foldl (fun acc v => (internValue acc v).2) t

/-- Example fixture: a visible rectangle child of the invisible frame. -/
def exU : RawNode := .mk "u" "U" "RECTANGLE" true [] []

/-- Example fixture: a second visible rectangle child of the invisible
frame. -/
def exV : RawNode := .mk "v" "V" "RECTANGLE" true [] []

/-- Example fixture: a visible sibling following the invisible frame. -/
def exW : RawNode := .mk "w" "W" "RECTANGLE" true [] []

/-- Example fixture: an invisible frame with two visible children. -/
def exM : RawNode := .mk "m" "M" "FRAME" false [] [exU, exV]

/-- Example fixture: a visible parent whose first child is the
invisible frame. -/
def exP : RawNode := .mk "p" "P" "FRAME" true [] [exM, exW]

/-- Example fixture: a solid fill written with its fields in one
order. -/
def exFillA : SValue := .obj [.field "type" (.str "SOLID"), .field "color" (.num 7)]

/-- Example fixture: the same solid fill with its fields permuted. -/
def exFillB : SValue := .obj [.field "color" (.num 7), .field "type" (.str "SOLID")]

/-- Example fixture: first rectangle carrying the shared fill. -/
def exR1 : RawNode := .mk "r1" "R1" "RECTANGLE" true [("fills", exFillA)] []

/-- Example fixture: second rectangle carrying the field-permuted copy
of the shared fill. -/
def exR2 : RawNode := .mk "r2" "R2" "RECTANGLE" true [("fills", exFillB)] []

/-- Example fixture: a frame holding the two rectangles. -/
def exF : RawNode := .mk "f" "F" "FRAME" true [] [exR1, exR2]

/-! ## FigmaService (from `src/services/figma.ts`) -/

/-- Constructor options of `FigmaService` (`FigmaAuthOptions`). -/
structure FigmaAuthOptions where
  figmaApiKey : String
  figmaOAuthToken : String
  useOAuth : Bool

/-- The authentication state held by a `FigmaService` instance. -/
structure FigmaService where
  apiKey : String
  oauthToken : String
  useOAuth : Bool

/-- `FigmaService`'s constructor: `this.apiKey = figmaApiKey || ""`,
`this.oauthToken = figmaOAuthToken || ""`,
`this.useOAuth = !!useOAuth && !!this.oauthToken` (a JavaScript string
is falsy exactly when it is empty). -/
def FigmaService.make (o : FigmaAuthOptions) : FigmaService :=
  let apiKey := if o.figmaApiKey = "" then "" else o.figmaApiKey
  let oauthToken := if o.figmaOAuthToken = "" then "" else o.figmaOAuthToken
  { apiKey := apiKey, oauthToken := oauthToken,
    useOAuth := o.useOAuth && !(oauthToken = "") }

/-- The headers attached by `FigmaService.request`: always
`Content-Type`, then either `Authorization: Bearer <oauthToken>` when
`this.useOAuth` holds or `X-Figma-Token: <apiKey>` otherwise. -/
def requestHeaders (s : FigmaService) : List (String × String) :=
  let base := [("Content-Type", "application/json")]
  if s.useOAuth then
    base ++ [("Authorization", "Bearer " ++ s.oauthToken)]
  else
    base ++ [("X-Figma-Token", s.apiKey)]

/-- Lookup of a header value by header name. -/
def lookupHeader (hs : List (String × String)) (nm : String) : Option String :=
  (hs.find? (fun h => decide (h.1 = nm))).map Prod.snd

/-- JavaScript truthiness of a `number | null | undefined` depth value:
`undefined`/`null` and `0` are falsy, every other number is truthy. -/
def jsTruthyDepth : Option Int → Bool
  | none => false
  | some n => !(n = 0)

/-- The endpoint built by `FigmaService.getFile`:
`/files/${fileKey}${depth ? `?depth=${depth}` : ""}`. -/
def getFileEndpoint (fileKey : String) (depth : Option Int) : String :=
  "/files/" ++ fileKey ++
    (if jsTruthyDepth depth then "?depth=" ++ toString (depth.getD 0) else "")

/-- The endpoint built by `FigmaService.getNode`:
`/files/${fileKey}/nodes?ids=${nodeId}${depth ? `&depth=${depth}` : ""}`. -/
def getNodeEndpoint (fileKey nodeId : String) (depth : Option Int) : String :=
  "/files/" ++ fileKey ++ "/nodes?ids=" ++ nodeId ++
    (if jsTruthyDepth depth then "&depth=" ++ toString (depth.getD 0) else "")

/-! ## Interner lemmas -/

/-- When an equal normalized value is already in the table, interning
returns the existing key and leaves the table unchanged. -/
theorem internValue_found {t : GlobalVariableTable} {v : SValue}
    {e : StyleKey × SValue}
    (h : t.find? (fun x => decide (x.2 = normalize v)) = some e) :
    internValue t v = (e.1, t) := by
  unfold internValue
  rw [h]

/-- When no equal normalized value is in the table, interning mints a
content-derived key and appends the canonical value. -/
theorem internValue_notFound {t : GlobalVariableTable} {v : SValue}
    (h : t.find? (fun x => decide (x.2 = normalize v)) = none) :
    internValue t v
      = (mintKey (normalize v), t ++ [(mintKey (normalize v), normalize v)]) := by
  unfold internValue
  rw [h]

/-- After interning a value, its normalized form is bound in the table
to the returned key. -/
theorem lookupVal_internValue_self (t : GlobalVariableTable) (v : SValue) :
    lookupVal (internValue t v).2 (normalize v) = some (internValue t v).1 := by
  cases hf : t.find? (fun x => decide (x.2 = normalize v)) with
  | some e =>
    rw [internValue_found hf]
    unfold lookupVal
    rw [hf]
    rfl
  | none =>
    rw [internValue_notFound hf]
    unfold lookupVal
    rw [List.find?_append, hf]
    simp

/-- Interning never rebinds an existing normalized value: a lookup that
succeeded before an intern call returns the same key afterwards. -/
theorem lookupVal_mono {t : GlobalVariableTable} {nv : SValue} {k : StyleKey}
    (v : SValue) (h : lookupVal t nv = some k) :
    lookupVal (internValue t v).2 nv = some k := by
  cases hf : t.find? (fun x => decide (x.2 = normalize v)) with
  | some e =>
    rw [internValue_found hf]
    exact h
  | none =>
    rw [internValue_notFound hf]
    unfold lookupVal at h ⊢
    rw [List.find?_append]
    cases hg : t.find? (fun e => decide (e.2 = nv)) with
    | none => rw [hg] at h; simp at h
    | some e => rw [hg] at h; simpa using h

/-- `lookupVal_mono` extended over a whole sequence of intern calls. -/
theorem lookupVal_internSeq_mono {nv : SValue} {k : StyleKey}
    (vs : List SValue) :
    ∀ {t : GlobalVariableTable}, lookupVal t nv = some k →
      lookupVal (internSeq t vs) nv = some k := by
  induction vs with
  | nil => intro t h; exact h
  | cons v vs ih =>
    intro t h
    have : internSeq t (v :: vs) = internSeq (internValue t v).2 vs := by
      simp [internSeq]
    rw [this]
    exact ih (lookupVal_mono v h)

/-- Interning a value whose normalized form is already bound returns
the bound key and the very same table. -/
theorem internValue_of_lookup {t : GlobalVariableTable} {nv : SValue}
    {k : StyleKey} {v : SValue}
    (h : lookupVal t nv = some k) (hv : normalize v = nv) :
    internValue t v = (k, t) := by
  unfold lookupVal at h
  cases hf : t.find? (fun e => decide (e.2 = nv)) with
  | none => rw [hf] at h; simp at h
  | some e =>
    rw [hf] at h
    simp at h
    have hf' : t.find? (fun x => decide (x.2 = normalize v)) = some e := by
      rw [hv]; exact hf
    rw [internValue_found hf', h]

/-- Interning preserves table well-formedness. -/
theorem wfTable_internValue {t : GlobalVariableTable} (hwf : WFTable t)
    (v : SValue) : WFTable (internValue t v).2 := by
  cases hf : t.find? (fun x => decide (x.2 = normalize v)) with
  | some e => rw [internValue_found hf]; exact hwf
  | none =>
    rw [internValue_notFound hf]
    unfold WFTable at hwf ⊢
    rw [List.pairwise_append]
    refine ⟨hwf, List.pairwise_singleton _ _, ?_⟩
    intro a ha b hb
    simp at hb
    have := List.find?_eq_none.mp hf a ha
    simp at this
    rw [hb]
    simpa using this

/-- A whole sequence of intern calls preserves table well-formedness. -/
theorem wfTable_internSeq (vs : List SValue) :
    ∀ {t : GlobalVariableTable}, WFTable t → WFTable (internSeq t vs) := by
  induction vs with
  | nil => intro t h; exact h
  | cons v vs ih =>
    intro t h
    have : internSeq t (v :: vs) = internSeq (internValue t v).2 vs := by
      simp [internSeq]
    rw [this]
    exact ih (wfTable_internValue h v)

/-- In a well-formed table, a value a lookup finds is stored exactly
once. -/
theorem countEntries_of_lookup {nv : SValue} {k : StyleKey} :
    ∀ {t : GlobalVariableTable}, WFTable t → lookupVal t nv = some k →
      countEntries t nv = 1 := by
  intro t
  induction t with
  | nil => intro _ h; simp [lookupVal] at h
  | cons e rest ih =>
    intro hwf h
    by_cases he : e.2 = nv
    · have h0 : rest.countP (fun x => decide (x.2 = nv)) = 0 := by
        apply List.countP_eq_zero.mpr
        intro b hb
        have := (List.pairwise_cons.mp hwf).1 b hb
        rw [he] at this
        simpa using fun hbnv => this hbnv.symm
      unfold countEntries
      rw [List.countP_cons_of_pos _ _ (by simpa using he)]
      rw [h0]
    · have hwr : WFTable rest := (List.pairwise_cons.mp hwf).2
      have hl : lookupVal rest nv = some k := by
        unfold lookupVal at h ⊢
        rwa [List.find?_cons_of_neg _ (by simpa using he)] at h
      unfold countEntries
      rw [List.countP_cons_of_neg _ _ (by simpa using he)]
      exact ih hwr hl

/-- Claim C1: for two style-bearing values that are structurally equal
after normalization, interning both within one run — with any further
intern calls in between — returns the same StyleKey, the second intern
call leaves the GlobalVariableTable unchanged, and the table contains
exactly one entry for the shared normalized value. -/
theorem intern_dedup_idempotent (t : GlobalVariableTable) (vs : List SValue)
    (v1 v2 : SValue) (hwf : WFTable t)
    (h : normalize v1 = normalize v2) :
    internValue (internSeq (internValue t v1).2 vs) v2
      = ((internValue t v1).1, internSeq (internValue t v1).2 vs) ∧
    countEntries (internSeq (internValue t v1).2 vs) (normalize v1) = 1 := by
  have h1 := lookupVal_internValue_self t v1
  have h2 := lookupVal_internSeq_mono vs h1
  refine ⟨internValue_of_lookup h2 h.symm, ?_⟩
  exact countEntries_of_lookup (wfTable_internSeq vs (wfTable_internValue hwf v1)) h2

/-- Concrete instantiation of `intern_dedup_idempotent`: two
field-permuted copies of one solid fill, interned into an empty table
around an intern of an unrelated stroke value. -/
theorem intern_dedup_idempotent_witness :
    WFTable [] ∧
    normalize (SValue.obj [.field "type" (.str "SOLID"), .field "color" (.num 7)])
      = normalize (SValue.obj [.field "color" (.num 7), .field "type" (.str "SOLID")]) ∧
    (internValue (internSeq (internValue []
        (SValue.obj [.field "type" (.str "SOLID"), .field "color" (.num 7)])).2
        [SValue.str "stroke"])
        (SValue.obj [.field "color" (.num 7), .field "type" (.str "SOLID")])
      = ((internValue []
          (SValue.obj [.field "type" (.str "SOLID"), .field "color" (.num 7)])).1,
         internSeq (internValue []
          (SValue.obj [.field "type" (.str "SOLID"), .field "color" (.num 7)])).2
          [SValue.str "stroke"]) ∧
     countEntries (internSeq (internValue []
        (SValue.obj [.field "type" (.str "SOLID"), .field "color" (.num 7)])).2
        [SValue.str "stroke"])
        (normalize (SValue.obj [.field "type" (.str "SOLID"), .field "color" (.num 7)])) = 1) :=
  ⟨List.Pairwise.nil,
   by simp [normalize, normalizeList, sortFields, insertField, fieldName]; decide,
   intern_dedup_idempotent [] [SValue.str "stroke"] _ _ List.Pairwise.nil
     (by simp [normalize, normalizeList, sortFields, insertField, fieldName]; decide)⟩

/-! ## Walker unfolding lemmas -/

/-- With the depth budget exhausted, every node is omitted entirely. -/
theorem walkChildren_exhausted (ns : List RawNode) (t : GlobalVariableTable) :
    walkChildren (some 0) ns t = ([], t) := by
  cases ns <;> simp [walkChildren]

/-- Walking an empty child sequence produces nothing and leaves the
table unchanged. -/
theorem walkChildren_nil (b : Option Nat) (t : GlobalVariableTable) :
    walkChildren b [] t = ([], t) := by
  cases b with
  | none => simp [walkChildren]
  | some n => cases n <;> simp [walkChildren]

/-- The Node Simplifier unfolded: id, name and kind copied verbatim,
style properties interned in source order, children walked with one
level of budget consumed. -/
theorem simplifyNode_eq (b : Option Nat) (n : RawNode) (t : GlobalVariableTable) :
    simplifyNode b n t
      = (SimplifiedNode.mk n.id n.name n.type (internProps n.styles t).1
           (walkChildren (decrBudget b) n.children (internProps n.styles t).2).1,
         (walkChildren (decrBudget b) n.children (internProps n.styles t).2).2) := by
  cases n
  simp [simplifyNode, RawNode.id, RawNode.name, RawNode.type, RawNode.styles,
    RawNode.children]

/-- Walking a child sequence headed by a retained node: the node is
simplified in place and the remaining siblings follow, the table
threaded left to right. -/
theorem walkChildren_cons_keep {b : Option Nat} {n : RawNode}
    (hb : b ≠ some 0) (hk : keepNode n = true)
    (rest : List RawNode) (t : GlobalVariableTable) :
    walkChildren b (n :: rest) t
      = ((simplifyNode b n t).1 :: (walkChildren b rest (simplifyNode b n t).2).1,
         (walkChildren b rest (simplifyNode b n t).2).2) := by
  cases n with
  | mk i nm ty vis props cs =>
    simp [keepNode, RawNode.visible, RawNode.type] at hk
    cases b with
    | none => simp [walkChildren, hk]
    | some m =>
      cases m with
      | zero => exact absurd rfl hb
      | succ k => simp [walkChildren, hk]

/-- Walking a child sequence headed by a filtered-out node (invisible
or payload-free kind): the node itself produces nothing and its
children are promoted in place, before the remaining siblings. -/
theorem walkChildren_cons_skip {b : Option Nat} {n : RawNode}
    (hb : b ≠ some 0) (hk : keepNode n = false)
    (rest : List RawNode) (t : GlobalVariableTable) :
    walkChildren b (n :: rest) t
      = ((walkChildren (decrBudget b) n.children t).1
           ++ (walkChildren b rest (walkChildren (decrBudget b) n.children t).2).1,
         (walkChildren b rest (walkChildren (decrBudget b) n.children t).2).2) := by
  cases n with
  | mk i nm ty vis props cs =>
    have hcond : (vis && !irrelevantKind ty) = false := by
      simpa [keepNode, RawNode.visible, RawNode.type] using hk
    cases b with
    | none => simp [walkChildren, RawNode.children, hcond]
    | some m =>
      cases m with
      | zero => exact absurd rfl hb
      | succ k => simp [walkChildren, RawNode.children, hcond]

/-- Pre-order collection of a simplified tree, unfolded. -/
theorem collectNode_eq (s : SimplifiedNode) :
    collectNode s = s :: collectForest s.children := by
  cases s
  simp [collectNode, SimplifiedNode.children]

/-- Pre-order collection distributes over forest concatenation. -/
theorem collectForest_append (xs ys : List SimplifiedNode) :
    collectForest (xs ++ ys) = collectForest xs ++ collectForest ys := by
  induction xs with
  | nil => simp [collectForest]
  | cons x xs ih => simp [collectForest, ih]

/-- The Simplifier copies the id verbatim. -/
theorem simplifyNode_id (b : Option Nat) (n : RawNode) (t : GlobalVariableTable) :
    (simplifyNode b n t).1.id = n.id := by
  rw [simplifyNode_eq]
  simp [SimplifiedNode.id]

/-- The children of a simplified node are the walk of the raw node's
children at one level less of budget, after its own properties were
interned. -/
theorem simplifyNode_children (b : Option Nat) (n : RawNode)
    (t : GlobalVariableTable) :
    (simplifyNode b n t).1.children
      = (walkChildren (decrBudget b) n.children (internProps n.styles t).2).1 := by
  rw [simplifyNode_eq]
  simp [SimplifiedNode.children]

/-- The style references of a simplified node are exactly the interned
properties of its raw node, in source order. -/
theorem simplifyNode_styleRefs (b : Option Nat) (n : RawNode)
    (t : GlobalVariableTable) :
    (simplifyNode b n t).1.styleRefs = (internProps n.styles t).1 := by
  rw [simplifyNode_eq]
  simp [SimplifiedNode.styleRefs]

/-- Claim C3: for a RawNode with children `[c1, c2, c3]`, all retained
and within the depth bound, the resulting SimplifiedNode.children is
exactly the simplification of `c1`, `c2`, `c3` in that order (table
threaded left to right — pre-order, depth-first, source order). -/
theorem order_preservation (b : Option Nat) (p c1 c2 c3 : RawNode)
    (t : GlobalVariableTable)
    (hc : p.children = [c1, c2, c3])
    (hb : decrBudget b ≠ some 0)
    (h1 : keepNode c1 = true) (h2 : keepNode c2 = true)
    (h3 : keepNode c3 = true) :
    (simplifyNode b p t).1.children
      = [(simplifyNode (decrBudget b) c1 (internProps p.styles t).2).1,
         (simplifyNode (decrBudget b) c2
           (simplifyNode (decrBudget b) c1 (internProps p.styles t).2).2).1,
         (simplifyNode (decrBudget b) c3
           (simplifyNode (decrBudget b) c2
             (simplifyNode (decrBudget b) c1 (internProps p.styles t).2).2).2).1] := by
  rw [simplifyNode_children, hc]
  rw [walkChildren_cons_keep hb h1]
  simp only
  rw [walkChildren_cons_keep hb h2]
  simp only
  rw [walkChildren_cons_keep hb h3]
  simp only
  rw [walkChildren_nil]

/-- Concrete instantiation of `order_preservation`: a frame with three
visible rectangles keeps them in source order. -/
theorem order_preservation_witness :
    (RawNode.mk "p" "P" "FRAME" true []
        [.mk "a" "A" "RECTANGLE" true [] [],
         .mk "b" "B" "RECTANGLE" true [] [],
         .mk "c" "C" "RECTANGLE" true [] []]).children
      = [.mk "a" "A" "RECTANGLE" true [] [],
         .mk "b" "B" "RECTANGLE" true [] [],
         .mk "c" "C" "RECTANGLE" true [] []] ∧
    decrBudget (some 3) ≠ some 0 ∧
    keepNode (.mk "a" "A" "RECTANGLE" true [] []) = true ∧
    (simplifyNode (some 3)
        (RawNode.mk "p" "P" "FRAME" true []
          [.mk "a" "A" "RECTANGLE" true [] [],
           .mk "b" "B" "RECTANGLE" true [] [],
           .mk "c" "C" "RECTANGLE" true [] []]) []).1.children
      = [(simplifyNode (decrBudget (some 3)) (.mk "a" "A" "RECTANGLE" true [] [])
            (internProps (RawNode.mk "p" "P" "FRAME" true []
              [.mk "a" "A" "RECTANGLE" true [] [],
               .mk "b" "B" "RECTANGLE" true [] [],
               .mk "c" "C" "RECTANGLE" true [] []]).styles []).2).1,
         (simplifyNode (decrBudget (some 3)) (.mk "b" "B" "RECTANGLE" true [] [])
            (simplifyNode (decrBudget (some 3)) (.mk "a" "A" "RECTANGLE" true [] [])
              (internProps (RawNode.mk "p" "P" "FRAME" true []
                [.mk "a" "A" "RECTANGLE" true [] [],
                 .mk "b" "B" "RECTANGLE" true [] [],
                 .mk "c" "C" "RECTANGLE" true [] []]).styles []).2).2).1,
         (simplifyNode (decrBudget (some 3)) (.mk "c" "C" "RECTANGLE" true [] [])
            (simplifyNode (decrBudget (some 3)) (.mk "b" "B" "RECTANGLE" true [] [])
              (simplifyNode (decrBudget (some 3)) (.mk "a" "A" "RECTANGLE" true [] [])
                (internProps (RawNode.mk "p" "P" "FRAME" true []
                  [.mk "a" "A" "RECTANGLE" true [] [],
                   .mk "b" "B" "RECTANGLE" true [] [],
                   .mk "c" "C" "RECTANGLE" true [] []]).styles []).2).2).2).1] :=
  ⟨rfl, by decide, by decide,
   order_preservation (some 3) _ _ _ _ [] rfl (by decide)
     (by decide) (by decide) (by decide)⟩

/-- Claim C6: simplifying a node-scoped response with requested id `X`
yields a forest whose single root has id `X`, while the metadata of the
SimplifiedDesign comes from the containing document's fields, not from
node `X`. -/
theorem node_scoped_metadata (md : Option Nat) (resp : NodesResponse)
    (x : String) (r : RawNode)
    (h : resp.nodes = [(x, r)]) (hid : r.id = x) (hk : keepNode r = true) :
    ∃ d, parseNodesResponse md resp = .ok d ∧
      d.name = resp.name ∧ d.lastModified = resp.lastModified ∧
      d.thumbnailUrl = resp.thumbnailUrl ∧
      d.nodes.map SimplifiedNode.id = [x] := by
  have hb : depthBudget md ≠ some 0 := by
    cases md <;> simp [depthBudget]
  refine ⟨_, by rw [parseNodesResponse.eq_def, h], rfl, rfl, rfl, ?_⟩
  simp only [assemble, h, List.map_cons, List.map_nil]
  rw [walkChildren_cons_keep hb hk]
  simp only [List.map_cons]
  rw [walkChildren_nil]
  simp [simplifyNode_id, hid]

/-- Concrete instantiation of `node_scoped_metadata`: the document's
metadata survives while the forest root is the requested node, whose
own name differs from the document name. -/
theorem node_scoped_metadata_witness :
    (NodesResponse.mk "Doc" "2024-01-01" "thumb"
        [("9:9", RawNode.mk "9:9" "Sub" "FRAME" true [] [])]).nodes
      = [("9:9", RawNode.mk "9:9" "Sub" "FRAME" true [] [])] ∧
    (RawNode.mk "9:9" "Sub" "FRAME" true [] []).id = "9:9" ∧
    keepNode (RawNode.mk "9:9" "Sub" "FRAME" true [] []) = true ∧
    ∃ d, parseNodesResponse (some 2)
        (NodesResponse.mk "Doc" "2024-01-01" "thumb"
          [("9:9", RawNode.mk "9:9" "Sub" "FRAME" true [] [])]) = .ok d ∧
      d.name = "Doc" ∧ d.lastModified = "2024-01-01" ∧
      d.thumbnailUrl = "thumb" ∧
      d.nodes.map SimplifiedNode.id = ["9:9"] :=
  ⟨rfl, rfl, by decide,
   node_scoped_metadata (some 2) _ "9:9" _ rfl rfl (by decide)⟩

/-! ## Raw-tree enumeration lemmas -/

/-- Enumeration of a raw forest, unfolded at a cons cell. -/
theorem rawEnumList_cons (n : RawNode) (rest : List RawNode) (q0 : Nat) :
    rawEnumList (n :: rest) q0 = rawEnum n q0 ++ rawEnumList rest q0 := by
  simp [rawEnumList]

/-- Enumeration of a raw tree, unfolded at the root. -/
theorem rawEnum_unfold (n : RawNode) (q0 : Nat) :
    rawEnum n q0 = (n, q0) :: rawEnumList n.children (q0 + 1) := by
  cases n
  simp [rawEnum, RawNode.children]

/-- Collection of a raw tree, unfolded at the root. -/
theorem rawCollect_unfold (n : RawNode) :
    rawCollect n = n :: rawCollectList n.children := by
  cases n
  simp [rawCollect, RawNode.children]

/-- Collection of a raw forest, unfolded at a cons cell. -/
theorem rawCollectList_cons (n : RawNode) (rest : List RawNode) :
    rawCollectList (n :: rest) = rawCollect n ++ rawCollectList rest := by
  simp [rawCollectList]

/-- Shifting the base depth of a raw-tree enumeration shifts every
recorded depth. -/
theorem rawEnum_shift :
    ∀ (n : RawNode) (q0 : Nat),
      rawEnum n (q0 + 1) = (rawEnum n q0).map (fun e => (e.1, e.2 + 1)) := by
  refine rawEnum.induct
    (fun n q0 => rawEnum n (q0 + 1) = (rawEnum n q0).map (fun e => (e.1, e.2 + 1)))
    (fun ns q0 => rawEnumList ns (q0 + 1) = (rawEnumList ns q0).map (fun e => (e.1, e.2 + 1)))
    ?_ ?_ ?_
  · intro i nm ty vis props cs q ih
    rw [rawEnum_unfold, rawEnum_unfold]
    simp only [RawNode.children, List.map_cons]
    rw [ih]
  · intro q
    simp [rawEnumList]
  · intro r rs q ih1 ih2
    rw [rawEnumList_cons, rawEnumList_cons]
    simp [ih1, ih2]

/-- List version of `rawEnum_shift`. -/
theorem rawEnumList_shift (ns : List RawNode) (q0 : Nat) :
    rawEnumList ns (q0 + 1) = (rawEnumList ns q0).map (fun e => (e.1, e.2 + 1)) := by
  induction ns with
  | nil => simp [rawEnumList]
  | cons n rest ih =>
    rw [rawEnumList_cons, rawEnumList_cons, rawEnum_shift]
    simp [ih]

/-- The nodes recorded by a depth enumeration are exactly the collected
nodes of the forest. -/
theorem rawEnumList_fst :
    ∀ (ns : List RawNode) (q0 : Nat),
      (rawEnumList ns q0).map Prod.fst = rawCollectList ns := by
  refine rawEnumList.induct
    (fun n q0 => (rawEnum n q0).map Prod.fst = rawCollect n)
    (fun ns q0 => (rawEnumList ns q0).map Prod.fst = rawCollectList ns)
    ?_ ?_ ?_
  · intro i nm ty vis props cs q ih
    rw [rawEnum_unfold, rawCollect_unfold]
    simp only [RawNode.children, List.map_cons]
    rw [ih]
  · intro q
    simp [rawEnumList, rawCollectList]
  · intro r rs q ih1 ih2
    rw [rawEnumList_cons, rawCollectList_cons]
    simp [ih1, ih2]

/-- Origin soundness of the walker: every node of the output forest
originates from a raw node of the walked forest — same id — whose raw
depth is strictly below the remaining budget. -/
theorem walk_origin :
    ∀ (b : Option Nat) (ns : List RawNode) (t : GlobalVariableTable),
      ∀ sn ∈ collectForest (walkChildren b ns t).1,
        ∃ r q, (r, q) ∈ rawEnumList ns 0 ∧ sn.id = r.id ∧
          ∀ m, b = some m → q < m := by
  refine walkChildren.induct
    (fun b n t =>
      ∀ sn ∈ collectNode (simplifyNode b n t).1,
        ∃ r q, (r, q) ∈ rawEnum n 0 ∧ sn.id = r.id ∧
          (b = some 0 → q = 0) ∧ (∀ m, b = some m → m ≠ 0 → q < m))
    (fun b ns t =>
      ∀ sn ∈ collectForest (walkChildren b ns t).1,
        ∃ r q, (r, q) ∈ rawEnumList ns 0 ∧ sn.id = r.id ∧
          ∀ m, b = some m → q < m)
    ?_ ?_ ?_ ?_ ?_
  · -- one simplified node
    intro b i nm ty vis props cs t refs t2 hip ss t21 hw ih sn hsn
    rw [simplifyNode_eq] at hsn
    simp only [RawNode.id, RawNode.name, RawNode.type, RawNode.styles,
      RawNode.children, hip, hw] at hsn
    rw [collectNode_eq] at hsn
    simp only [SimplifiedNode.children, List.mem_cons] at hsn
    cases hsn with
    | inl hsn =>
      refine ⟨.mk i nm ty vis props cs, 0, ?_, ?_, ?_, ?_⟩
      · rw [rawEnum_unfold]
        exact List.mem_cons_self _ _
      · rw [hsn]; rfl
      · intro _; rfl
      · intro m _ hne; omega
    | inr hsn =>
      have hsn2 : sn ∈ collectForest (walkChildren (decrBudget b) cs t2).1 := by
        rw [hw]; exact hsn
      obtain ⟨r, q, hmem, hid, hbound⟩ := ih sn hsn2
      refine ⟨r, q + 1, ?_, hid, ?_, ?_⟩
      · rw [rawEnum_unfold]
        simp only [RawNode.children, List.mem_cons]
        right
        have h1 : rawEnumList cs (0 + 1) = (rawEnumList cs 0).map (fun e => (e.1, e.2 + 1)) :=
          rawEnumList_shift cs 0
        simp only [Nat.zero_add] at h1
        rw [h1]
        exact List.mem_map.mpr ⟨(r, q), hmem, rfl⟩
      · intro h0
        subst h0
        have := hbound 0 (by simp [decrBudget])
        omega
      · intro m hm hne
        subst hm
        have := hbound (m - 1) (by simp [decrBudget])
        omega
  · -- budget exhausted
    intro ns t sn hsn
    rw [walkChildren_exhausted] at hsn
    simp [collectForest] at hsn
  · -- empty sequence
    intro b t _ sn hsn
    rw [walkChildren_nil] at hsn
    simp [collectForest] at hsn
  · -- retained head node
    intro b t i nm ty vis props cs rest hk s t1 hs ss t2 hw hb ih1 ih2 sn hsn
    rw [walkChildren_cons_keep (fun h => hb h)
      (by simpa [keepNode, RawNode.visible, RawNode.type] using hk) rest t] at hsn
    simp only [hs] at hsn
    rw [collectForest] at hsn
    rw [List.mem_append] at hsn
    cases hsn with
    | inl hsn =>
      have hsn1 : sn ∈ collectNode (simplifyNode b (.mk i nm ty vis props cs) t).1 := by
        rw [hs]; exact hsn
      obtain ⟨r, q, hmem, hid, _, hbound⟩ := ih1 sn hsn1
      refine ⟨r, q, ?_, hid, ?_⟩
      · rw [rawEnumList_cons, List.mem_append]
        exact Or.inl hmem
      · intro m hm
        have hne : m ≠ 0 := by
          intro h0; subst h0; exact hb hm
        exact hbound m hm hne
    | inr hsn =>
      obtain ⟨r, q, hmem, hid, hbound⟩ := ih2 sn hsn
      refine ⟨r, q, ?_, hid, hbound⟩
      rw [rawEnumList_cons, List.mem_append]
      exact Or.inr hmem
  · -- filtered-out head node, children promoted
    intro b t i nm ty vis props cs rest hk ss t2 hcs ss1 t21 hrest hb ih1 ih2 sn hsn
    rw [walkChildren_cons_skip (fun h => hb h)
      (by simpa [keepNode, RawNode.visible, RawNode.type] using hk) rest t] at hsn
    simp only [RawNode.children, hcs] at hsn
    rw [collectForest_append, List.mem_append] at hsn
    cases hsn with
    | inl hsn =>
      have hsn1 : sn ∈ collectForest (walkChildren (decrBudget b) cs t).1 := by
        rw [hcs]; exact hsn
      obtain ⟨r, q, hmem, hid, hbound⟩ := ih1 sn hsn1
      refine ⟨r, q + 1, ?_, hid, ?_⟩
      · rw [rawEnumList_cons, List.mem_append]
        left
        rw [rawEnum_unfold]
        simp only [RawNode.children, List.mem_cons]
        right
        have h1 : rawEnumList cs (0 + 1) = (rawEnumList cs 0).map (fun e => (e.1, e.2 + 1)) :=
          rawEnumList_shift cs 0
        simp only [Nat.zero_add] at h1
        rw [h1]
        exact List.mem_map.mpr ⟨(r, q), hmem, rfl⟩
      · intro m hm
        subst hm
        have hne : m ≠ 0 := by
          intro h0
          subst h0
          exact hb rfl
        have := hbound (m - 1) (by simp [decrBudget])
        omega
    | inr hsn =>
      obtain ⟨r, q, hmem, hid, hbound⟩ := ih2 sn hsn
      refine ⟨r, q, ?_, hid, hbound⟩
      rw [rawEnumList_cons, List.mem_append]
      exact Or.inr hmem

/-- A member of a forest is among the collected nodes of that forest. -/
theorem mem_collectForest_of_mem {s : SimplifiedNode} :
    ∀ {ss : List SimplifiedNode}, s ∈ ss → s ∈ collectForest ss := by
  intro ss
  induction ss with
  | nil => intro h; cases h
  | cons x xs ih =>
    intro h
    rw [collectForest, List.mem_append]
    cases List.mem_cons.mp h with
    | inl h => left; rw [h, collectNode_eq]; exact List.mem_cons_self _ _
    | inr h => right; exact ih h

/-- Every retained node of a walked sequence shows up, by id, in the
top level of the output (its children are expanded, not dropped). -/
theorem walk_includes {b : Option Nat} (hb : b ≠ some 0) :
    ∀ (ns : List RawNode) (t : GlobalVariableTable) (n : RawNode),
      n ∈ ns → keepNode n = true →
      n.id ∈ ((walkChildren b ns t).1).map SimplifiedNode.id := by
  intro ns
  induction ns with
  | nil => intro t n h; cases h
  | cons m rest ih =>
    intro t n hmem hk
    cases List.mem_cons.mp hmem with
    | inl h =>
      subst h
      rw [walkChildren_cons_keep hb hk]
      simp only [List.map_cons, List.mem_cons]
      left
      rw [simplifyNode_id]
    | inr h =>
      cases hkm : keepNode m with
      | true =>
        rw [walkChildren_cons_keep hb hkm]
        simp only [List.map_cons, List.mem_cons]
        right
        exact ih _ n h hk
      | false =>
        rw [walkChildren_cons_skip hb hkm]
        simp only [List.map_append, List.mem_append]
        right
        exact ih _ n h hk

/-- Claim C4: with maxDepth `d`, every node of the output originates
from a raw node at raw depth at most `d` relative to the requested root
(deeper nodes are omitted entirely), while the root's retained children
— raw depth 1 — are still expanded whenever the bound admits them. -/
theorem depth_bound (d : Nat) (root : RawNode) (t0 : GlobalVariableTable) :
    (∀ sn ∈ collectForest (walkChildren (depthBudget (some d)) [root] t0).1,
      ∃ r q, (r, q) ∈ rawEnum root 0 ∧ sn.id = r.id ∧ q ≤ d) ∧
    (1 ≤ d → ∀ c ∈ root.children, keepNode c = true →
      c.id ∈ (collectForest (walkChildren (depthBudget (some d)) [root] t0).1).map
        SimplifiedNode.id) := by
  constructor
  · intro sn hsn
    obtain ⟨r, q, hmem, hid, hbound⟩ :=
      walk_origin (depthBudget (some d)) [root] t0 sn hsn
    refine ⟨r, q, ?_, hid, ?_⟩
    · rw [rawEnumList_cons] at hmem
      simpa [rawEnumList] using hmem
    · have := hbound (d + 1) (by simp [depthBudget])
      omega
  · intro hd c hc hkc
    have hb1 : depthBudget (some d) ≠ some 0 := by simp [depthBudget]
    have hb2 : decrBudget (depthBudget (some d)) ≠ some 0 := by
      simp [depthBudget, decrBudget]
      omega
    cases hkr : keepNode root with
    | true =>
      have hout := congrArg Prod.fst (walkChildren_cons_keep hb1 hkr [] t0)
      simp only [walkChildren_nil] at hout
      rw [hout]
      have hin := walk_includes hb2 root.children
        (internProps root.styles t0).2 c hc hkc
      obtain ⟨sc, hsc, hscid⟩ := List.mem_map.mp hin
      refine List.mem_map.mpr ⟨sc, ?_, hscid⟩
      simp only [collectForest, List.append_nil]
      rw [collectNode_eq, List.mem_cons]
      right
      rw [simplifyNode_children]
      exact mem_collectForest_of_mem hsc
    | false =>
      have hout := congrArg Prod.fst (walkChildren_cons_skip hb1 hkr [] t0)
      simp only [walkChildren_nil, List.append_nil] at hout
      rw [hout]
      have hin := walk_includes hb2 root.children t0 c hc hkc
      obtain ⟨sc, hsc, hscid⟩ := List.mem_map.mp hin
      exact List.mem_map.mpr ⟨sc, mem_collectForest_of_mem hsc, hscid⟩

/-- Concrete instantiation of `depth_bound` at maxDepth 1: the root's
child is admitted while its grandchild is cut; every output node indeed
originates from raw depth at most 1. -/
theorem depth_bound_witness :
    (SimplifiedNode.mk "c" "C" "FRAME" [] []
        ∈ collectForest (walkChildren (depthBudget (some 1))
            [RawNode.mk "r" "R" "FRAME" true []
              [.mk "c" "C" "FRAME" true [] [.mk "g" "G" "FRAME" true [] []]]] []).1 ∧
      ∃ r q, (r, q) ∈ rawEnum (RawNode.mk "r" "R" "FRAME" true []
          [.mk "c" "C" "FRAME" true [] [.mk "g" "G" "FRAME" true [] []]]) 0 ∧
        (SimplifiedNode.mk "c" "C" "FRAME" [] []).id = r.id ∧ q ≤ 1) ∧
    (1 ≤ 1 ∧ (RawNode.mk "c" "C" "FRAME" true [] [.mk "g" "G" "FRAME" true [] []])
        ∈ (RawNode.mk "r" "R" "FRAME" true []
            [.mk "c" "C" "FRAME" true [] [.mk "g" "G" "FRAME" true [] []]]).children ∧
      keepNode (.mk "c" "C" "FRAME" true [] [.mk "g" "G" "FRAME" true [] []]) = true ∧
      (RawNode.mk "c" "C" "FRAME" true [] [.mk "g" "G" "FRAME" true [] []]).id
        ∈ (collectForest (walkChildren (depthBudget (some 1))
            [RawNode.mk "r" "R" "FRAME" true []
              [.mk "c" "C" "FRAME" true [] [.mk "g" "G" "FRAME" true [] []]]] []).1).map
          SimplifiedNode.id) :=
  ⟨⟨by simp [depthBudget, walkChildren, simplifyNode, internProps, decrBudget,
        irrelevantKind, collectForest, collectNode],
    (depth_bound 1 (.mk "r" "R" "FRAME" true []
        [.mk "c" "C" "FRAME" true [] [.mk "g" "G" "FRAME" true [] []]]) []).1
      (SimplifiedNode.mk "c" "C" "FRAME" [] [])
      (by simp [depthBudget, walkChildren, simplifyNode, internProps, decrBudget,
        irrelevantKind, collectForest, collectNode])⟩,
   ⟨le_refl 1, by simp [RawNode.children], by decide,
    (depth_bound 1 (.mk "r" "R" "FRAME" true []
        [.mk "c" "C" "FRAME" true [] [.mk "g" "G" "FRAME" true [] []]]) []).2
      (le_refl 1) _ (by simp [RawNode.children]) (by decide)⟩⟩

/-- Tree version of `rawEnumList_fst`. -/
theorem rawEnum_fst (n : RawNode) (q0 : Nat) :
    (rawEnum n q0).map Prod.fst = rawCollect n := by
  have h := rawEnumList_fst [n] q0
  rw [rawEnumList_cons, rawCollectList_cons] at h
  simpa [rawEnumList, rawCollectList] using h

/-- Origin soundness for one retained simplified node: every node of
its simplified subtree originates, by id, from its raw subtree. -/
theorem simplify_origin {b : Option Nat} (hb : b ≠ some 0) {n : RawNode}
    (hk : keepNode n = true) (t : GlobalVariableTable) :
    ∀ sn ∈ collectNode (simplifyNode b n t).1,
      ∃ r q, (r, q) ∈ rawEnum n 0 ∧ sn.id = r.id := by
  intro sn hsn
  have hout := congrArg Prod.fst (walkChildren_cons_keep hb hk [] t)
  simp only [walkChildren_nil] at hout
  have hmem : sn ∈ collectForest (walkChildren b [n] t).1 := by
    rw [hout]
    simp only [collectForest, List.append_nil]
    exact hsn
  obtain ⟨r, q, hm, hid, _⟩ := walk_origin b [n] t sn hmem
  rw [rawEnumList_cons] at hm
  exact ⟨r, q, by simpa [rawEnumList] using hm, hid⟩

/-- Claim C5: an invisible node `m` is flattened away — its retained
children appear, in original relative order, as direct children of
`m`'s parent, while no node of the output subtree carries `m`'s id
(given that `m`'s id is fresh among the surviving raw nodes). -/
theorem flattening_correctness (b : Option Nat) (p m u v : RawNode)
    (rest : List RawNode) (t : GlobalVariableTable)
    (hpc : p.children = m :: rest)
    (hm : m.visible = false)
    (hmc : m.children = [u, v])
    (hu : keepNode u = true) (hv : keepNode v = true)
    (hb1 : decrBudget b ≠ some 0)
    (hb2 : decrBudget (decrBudget b) ≠ some 0)
    (hfresh : ∀ r, (r ∈ rawCollect u ∨ r ∈ rawCollect v ∨ r ∈ rawCollectList rest) →
      r.id ≠ m.id) :
    (simplifyNode b p t).1.children
      = (simplifyNode (decrBudget (decrBudget b)) u (internProps p.styles t).2).1
        :: (simplifyNode (decrBudget (decrBudget b)) v
             (simplifyNode (decrBudget (decrBudget b)) u (internProps p.styles t).2).2).1
        :: (walkChildren (decrBudget b) rest
             (simplifyNode (decrBudget (decrBudget b)) v
               (simplifyNode (decrBudget (decrBudget b)) u
                 (internProps p.styles t).2).2).2).1 ∧
    (simplifyNode (decrBudget (decrBudget b)) u (internProps p.styles t).2).1.id
      = u.id ∧
    (simplifyNode (decrBudget (decrBudget b)) v
      (simplifyNode (decrBudget (decrBudget b)) u
        (internProps p.styles t).2).2).1.id = v.id ∧
    m.id ∉ (collectForest (simplifyNode b p t).1.children).map SimplifiedNode.id := by
  have hkm : keepNode m = false := by
    simp [keepNode, hm]
  have ew : walkChildren (decrBudget (decrBudget b)) [u, v] (internProps p.styles t).2
      = ((simplifyNode (decrBudget (decrBudget b)) u (internProps p.styles t).2).1
          :: (simplifyNode (decrBudget (decrBudget b)) v
               (simplifyNode (decrBudget (decrBudget b)) u
                 (internProps p.styles t).2).2).1 :: [],
         (simplifyNode (decrBudget (decrBudget b)) v
           (simplifyNode (decrBudget (decrBudget b)) u
             (internProps p.styles t).2).2).2) := by
    rw [walkChildren_cons_keep hb2 hu, walkChildren_cons_keep hb2 hv, walkChildren_nil]
  have hskip := congrArg Prod.fst
    (walkChildren_cons_skip hb1 hkm rest (internProps p.styles t).2)
  rw [hmc, ew] at hskip
  simp only at hskip
  have hchildren : (simplifyNode b p t).1.children
      = (simplifyNode (decrBudget (decrBudget b)) u (internProps p.styles t).2).1
        :: (simplifyNode (decrBudget (decrBudget b)) v
             (simplifyNode (decrBudget (decrBudget b)) u
               (internProps p.styles t).2).2).1
        :: (walkChildren (decrBudget b) rest
             (simplifyNode (decrBudget (decrBudget b)) v
               (simplifyNode (decrBudget (decrBudget b)) u
                 (internProps p.styles t).2).2).2).1 := by
    rw [simplifyNode_children, hpc, hskip]
    simp
  refine ⟨hchildren, simplifyNode_id _ _ _, simplifyNode_id _ _ _, ?_⟩
  intro hcontra
  obtain ⟨sn, hsn, hsnid⟩ := List.mem_map.mp hcontra
  rw [hchildren] at hsn
  rw [collectForest, collectForest, List.mem_append, List.mem_append] at hsn
  rcases hsn with hsn | hsn | hsn
  · obtain ⟨r, q, hmr, hid⟩ := simplify_origin hb2 hu _ sn hsn
    have hr : r ∈ rawCollect u := by
      rw [← rawEnum_fst u 0]
      exact List.mem_map.mpr ⟨(r, q), hmr, rfl⟩
    exact hfresh r (Or.inl hr) (by rw [← hid, hsnid])
  · obtain ⟨r, q, hmr, hid⟩ := simplify_origin hb2 hv _ sn hsn
    have hr : r ∈ rawCollect v := by
      rw [← rawEnum_fst v 0]
      exact List.mem_map.mpr ⟨(r, q), hmr, rfl⟩
    exact hfresh r (Or.inr (Or.inl hr)) (by rw [← hid, hsnid])
  · obtain ⟨r, q, hmr, hid, _⟩ := walk_origin (decrBudget b) rest _ sn hsn
    have hr : r ∈ rawCollectList rest := by
      rw [← rawEnumList_fst rest 0]
      exact List.mem_map.mpr ⟨(r, q), hmr, rfl⟩
    exact hfresh r (Or.inr (Or.inr hr)) (by rw [← hid, hsnid])

/-- Concrete instantiation of `flattening_correctness`: the invisible
frame `exM` disappears while its rectangles `exU`, `exV` become direct
children of `exP`, in order, and no output node carries `exM`'s id. -/
theorem flattening_correctness_witness :
    exP.children = exM :: [exW] ∧
    exM.visible = false ∧
    exM.children = [exU, exV] ∧
    keepNode exU = true ∧ keepNode exV = true ∧
    decrBudget (some 3) ≠ some 0 ∧
    decrBudget (decrBudget (some 3)) ≠ some 0 ∧
    (simplifyNode (decrBudget (decrBudget (some 3))) exU
      (internProps exP.styles []).2).1.id = exU.id ∧
    (simplifyNode (decrBudget (decrBudget (some 3))) exV
      (simplifyNode (decrBudget (decrBudget (some 3))) exU
        (internProps exP.styles []).2).2).1.id = exV.id ∧
    exM.id ∉ (collectForest (simplifyNode (some 3) exP []).1.children).map
      SimplifiedNode.id :=
  ⟨rfl, rfl, rfl, by decide, by decide, by decide, by decide,
   (flattening_correctness (some 3) exP exM exU exV [exW] [] rfl rfl rfl
      (by decide) (by decide) (by decide) (by decide)
      (by intro r hr
          simp [exU, exV, exW, rawCollect_unfold, rawCollectList,
            RawNode.children] at hr
          rcases hr with rfl | rfl | rfl <;> decide)).2.1,
   (flattening_correctness (some 3) exP exM exU exV [exW] [] rfl rfl rfl
      (by decide) (by decide) (by decide) (by decide)
      (by intro r hr
          simp [exU, exV, exW, rawCollect_unfold, rawCollectList,
            RawNode.children] at hr
          rcases hr with rfl | rfl | rfl <;> decide)).2.2.1,
   (flattening_correctness (some 3) exP exM exU exV [exW] [] rfl rfl rfl
      (by decide) (by decide) (by decide) (by decide)
      (by intro r hr
          simp [exU, exV, exW, rawCollect_unfold, rawCollectList,
            RawNode.children] at hr
          rcases hr with rfl | rfl | rfl <;> decide)).2.2.2⟩

/-! ## Style-reference lemmas -/

/-- Interning a node's whole property list never rebinds an existing
normalized value. -/
theorem lookupVal_internProps_mono {nv : SValue} {k : StyleKey} :
    ∀ (props : List (String × SValue)) {t : GlobalVariableTable},
      lookupVal t nv = some k → lookupVal (internProps props t).2 nv = some k := by
  intro props
  induction props with
  | nil => intro t h; exact h
  | cons pv rest ih =>
    intro t h
    cases pv with
    | mk p v =>
      rw [internProps]
      exact ih (lookupVal_mono v h)

/-- The whole walk never rebinds a normalized value that the table
already maps: whatever key a value had before stays its key until the
end of the run. -/
theorem lookupVal_walk_mono :
    ∀ (b : Option Nat) (ns : List RawNode) (t : GlobalVariableTable)
      (nv : SValue) (k : StyleKey),
      lookupVal t nv = some k → lookupVal (walkChildren b ns t).2 nv = some k := by
  refine walkChildren.induct
    (fun b n t => ∀ nv k, lookupVal t nv = some k →
      lookupVal (simplifyNode b n t).2 nv = some k)
    (fun b ns t => ∀ nv k, lookupVal t nv = some k →
      lookupVal (walkChildren b ns t).2 nv = some k)
    ?_ ?_ ?_ ?_ ?_
  · intro b i nm ty vis props cs t refs t2 hip ss t21 hw ih nv k h
    rw [simplifyNode_eq]
    simp only [RawNode.styles, RawNode.children, hip, hw]
    have h1 : lookupVal t2 nv = some k := by
      have := lookupVal_internProps_mono props h
      rwa [hip] at this
    have h2 := ih nv k h1
    rwa [hw] at h2
  · intro ns t nv k h
    rwa [walkChildren_exhausted]
  · intro b t _ nv k h
    rwa [walkChildren_nil]
  · intro b t i nm ty vis props cs rest hk s t1 hs ss t2 hw hb ih1 ih2 nv k h
    rw [walkChildren_cons_keep (fun hh => hb hh)
      (by simpa [keepNode, RawNode.visible, RawNode.type] using hk) rest t]
    simp only [hs]
    have h1 : lookupVal (simplifyNode b (.mk i nm ty vis props cs) t).2 nv = some k :=
      ih1 nv k h
    rw [hs] at h1
    exact ih2 nv k h1
  · intro b t i nm ty vis props cs rest hk ss t2 hcs ss1 t21 hrest hb ih1 ih2 nv k h
    rw [walkChildren_cons_skip (fun hh => hb hh)
      (by simpa [keepNode, RawNode.visible, RawNode.type] using hk) rest t]
    simp only [RawNode.children, hcs]
    have h1 : lookupVal (walkChildren (decrBudget b) cs t).2 nv = some k :=
      ih1 nv k h
    rw [hcs] at h1
    exact ih2 nv k h1

/-- Every style reference produced by interning a property list has an
originating property whose normalized value the resulting table maps to
that same key. -/
theorem internProps_refs :
    ∀ (props : List (String × SValue)) (t : GlobalVariableTable)
      (p : String) (k : StyleKey), (p, k) ∈ (internProps props t).1 →
      ∃ v, (p, v) ∈ props ∧
        lookupVal (internProps props t).2 (normalize v) = some k := by
  intro props
  induction props with
  | nil => intro t p k h; simp [internProps] at h
  | cons pv rest ih =>
    intro t p k h
    cases pv with
    | mk p0 v0 =>
      rw [internProps] at h ⊢
      simp only [List.mem_cons] at h
      cases h with
      | inl h =>
        have hp : p = p0 := congrArg Prod.fst h
        have hk : k = (internValue t v0).1 := congrArg Prod.snd h
        subst hp
        subst hk
        refine ⟨v0, List.mem_cons_self _ _, ?_⟩
        exact lookupVal_internProps_mono rest (lookupVal_internValue_self t v0)
      | inr h =>
        obtain ⟨v, hv, hl⟩ := ih (internValue t v0).2 p k h
        exact ⟨v, List.mem_cons_of_mem _ hv, hl⟩

/-- Origin soundness for style references: every reference `(p, k)` on
any node of the output forest stems from a property `(p, v)` of a raw
node with the same id, and the final table of the run maps `normalize v`
to exactly `k`. -/
theorem walk_refs :
    ∀ (b : Option Nat) (ns : List RawNode) (t : GlobalVariableTable),
      ∀ sn ∈ collectForest (walkChildren b ns t).1,
        ∀ p k, (p, k) ∈ sn.styleRefs →
          ∃ r, r ∈ rawCollectList ns ∧ sn.id = r.id ∧
            ∃ v, (p, v) ∈ r.styles ∧
              lookupVal (walkChildren b ns t).2 (normalize v) = some k := by
  refine walkChildren.induct
    (fun b n t =>
      ∀ sn ∈ collectNode (simplifyNode b n t).1,
        ∀ p k, (p, k) ∈ sn.styleRefs →
          ∃ r, r ∈ rawCollect n ∧ sn.id = r.id ∧
            ∃ v, (p, v) ∈ r.styles ∧
              lookupVal (simplifyNode b n t).2 (normalize v) = some k)
    (fun b ns t =>
      ∀ sn ∈ collectForest (walkChildren b ns t).1,
        ∀ p k, (p, k) ∈ sn.styleRefs →
          ∃ r, r ∈ rawCollectList ns ∧ sn.id = r.id ∧
            ∃ v, (p, v) ∈ r.styles ∧
              lookupVal (walkChildren b ns t).2 (normalize v) = some k)
    ?_ ?_ ?_ ?_ ?_
  · intro b i nm ty vis props cs t refs t2 hip ss t21 hw ih sn hsn p k hpk
    rw [simplifyNode_eq] at hsn ⊢
    simp only [RawNode.id, RawNode.name, RawNode.type, RawNode.styles,
      RawNode.children, hip, hw] at hsn ⊢
    rw [collectNode_eq] at hsn
    simp only [SimplifiedNode.children, List.mem_cons] at hsn
    cases hsn with
    | inl hsn =>
      subst hsn
      simp only [SimplifiedNode.styleRefs] at hpk
      have hpk2 : (p, k) ∈ (internProps props t).1 := by rw [hip]; exact hpk
      obtain ⟨v, hv, hl⟩ := internProps_refs props t p k hpk2
      refine ⟨.mk i nm ty vis props cs, ?_, rfl, v, hv, ?_⟩
      · rw [rawCollect_unfold]
        exact List.mem_cons_self _ _
      · rw [hip] at hl
        have := lookupVal_walk_mono (decrBudget b) cs t2 (normalize v) k hl
        rwa [hw] at this
    | inr hsn =>
      have hsn2 : sn ∈ collectForest (walkChildren (decrBudget b) cs t2).1 := by
        rw [hw]; exact hsn
      obtain ⟨r, hr, hid, v, hv, hl⟩ := ih sn hsn2 p k hpk
      refine ⟨r, ?_, hid, v, hv, ?_⟩
      · rw [rawCollect_unfold]
        simp only [RawNode.children, List.mem_cons]
        exact Or.inr hr
      · rwa [hw] at hl
  · intro ns t sn hsn
    rw [walkChildren_exhausted] at hsn
    simp [collectForest] at hsn
  · intro b t _ sn hsn
    rw [walkChildren_nil] at hsn
    simp [collectForest] at hsn
  · intro b t i nm ty vis props cs rest hk s t1 hs ss t2 hw hb ih1 ih2 sn hsn p k hpk
    have hkeep : keepNode (RawNode.mk i nm ty vis props cs) = true := by
      simpa [keepNode, RawNode.visible, RawNode.type] using hk
    rw [walkChildren_cons_keep (fun hh => hb hh) hkeep rest t] at hsn ⊢
    simp only [hs] at hsn ⊢
    rw [collectForest, List.mem_append] at hsn
    cases hsn with
    | inl hsn =>
      have hsn1 : sn ∈ collectNode (simplifyNode b (.mk i nm ty vis props cs) t).1 := by
        rw [hs]; exact hsn
      obtain ⟨r, hr, hid, v, hv, hl⟩ := ih1 sn hsn1 p k hpk
      refine ⟨r, ?_, hid, v, hv, ?_⟩
      · rw [rawCollectList_cons, List.mem_append]
        exact Or.inl hr
      · rw [hs] at hl
        exact lookupVal_walk_mono b rest t1 (normalize v) k hl
    | inr hsn =>
      obtain ⟨r, hr, hid, v, hv, hl⟩ := ih2 sn hsn p k hpk
      refine ⟨r, ?_, hid, v, hv, hl⟩
      rw [rawCollectList_cons, List.mem_append]
      exact Or.inr hr
  · intro b t i nm ty vis props cs rest hk ss t2 hcs ss1 t21 hrest hb ih1 ih2 sn hsn p k hpk
    have hskip : keepNode (RawNode.mk i nm ty vis props cs) = false := by
      simpa [keepNode, RawNode.visible, RawNode.type] using hk
    rw [walkChildren_cons_skip (fun hh => hb hh) hskip rest t] at hsn ⊢
    simp only [RawNode.children, hcs] at hsn ⊢
    rw [collectForest_append, List.mem_append] at hsn
    cases hsn with
    | inl hsn =>
      have hsn1 : sn ∈ collectForest (walkChildren (decrBudget b) cs t).1 := by
        rw [hcs]; exact hsn
      obtain ⟨r, hr, hid, v, hv, hl⟩ := ih1 sn hsn1 p k hpk
      refine ⟨r, ?_, hid, v, hv, ?_⟩
      · rw [rawCollectList_cons, List.mem_append]
        left
        rw [rawCollect_unfold]
        simp only [RawNode.children, List.mem_cons]
        exact Or.inr hr
      · rw [hcs] at hl
        exact lookupVal_walk_mono b rest t2 (normalize v) k hl
    | inr hsn =>
      obtain ⟨r, hr, hid, v, hv, hl⟩ := ih2 sn hsn p k hpk
      refine ⟨r, ?_, hid, v, hv, hl⟩
      rw [rawCollectList_cons, List.mem_append]
      exact Or.inr hr

/-- Claim C2: in one run, a SimplifiedNode carries only StyleKey
references, each naming an entry of the run's GlobalVariableTable; and
two properties, on any two output nodes, whose source values are
structurally equal after normalization reference the same StyleKey.
(Raw ids and per-node property names are assumed unambiguous, as they
are in the source payload.) -/
theorem no_value_duplication (md : Option Nat) (roots : List RawNode)
    (hids : ((rawCollectList roots).map RawNode.id).Nodup)
    (hprops : ∀ r ∈ rawCollectList roots, (r.styles.map Prod.fst).Nodup) :
    (∀ sn ∈ collectForest (walkChildren (depthBudget md) roots []).1,
      ∀ p k, (p, k) ∈ sn.styleRefs →
        ∃ nv, (k, nv) ∈ (walkChildren (depthBudget md) roots []).2) ∧
    (∀ sn1 ∈ collectForest (walkChildren (depthBudget md) roots []).1,
      ∀ sn2 ∈ collectForest (walkChildren (depthBudget md) roots []).1,
      ∀ p1 k1 p2 k2, (p1, k1) ∈ sn1.styleRefs → (p2, k2) ∈ sn2.styleRefs →
      ∀ r1, r1 ∈ rawCollectList roots → r1.id = sn1.id →
      ∀ r2, r2 ∈ rawCollectList roots → r2.id = sn2.id →
      ∀ v1 v2, (p1, v1) ∈ r1.styles → (p2, v2) ∈ r2.styles →
        normalize v1 = normalize v2 → k1 = k2) := by
  constructor
  · intro sn hsn p k hpk
    obtain ⟨r, _, _, v, _, hl⟩ :=
      walk_refs (depthBudget md) roots [] sn hsn p k hpk
    unfold lookupVal at hl
    obtain ⟨e, hfind, he1⟩ := Option.map_eq_some'.mp hl
    refine ⟨e.2, ?_⟩
    have hmem := List.mem_of_find?_eq_some hfind
    rwa [← he1, Prod.mk.eta]
  · intro sn1 hsn1 sn2 hsn2 p1 k1 p2 k2 h1 h2 r1 hr1 hid1 r2 hr2 hid2
      v1 v2 hv1 hv2 hnorm
    obtain ⟨r1p, hr1p, hid1p, v1p, hv1p, hl1⟩ :=
      walk_refs (depthBudget md) roots [] sn1 hsn1 p1 k1 h1
    obtain ⟨r2p, hr2p, hid2p, v2p, hv2p, hl2⟩ :=
      walk_refs (depthBudget md) roots [] sn2 hsn2 p2 k2 h2
    have he1 : r1p = r1 :=
      List.inj_on_of_nodup_map hids hr1p hr1 (by rw [← hid1p, hid1])
    have he2 : r2p = r2 :=
      List.inj_on_of_nodup_map hids hr2p hr2 (by rw [← hid2p, hid2])
    subst he1
    subst he2
    have hv1e : v1p = v1 := by
      have := List.inj_on_of_nodup_map (hprops r1p hr1) hv1p hv1 rfl
      exact congrArg Prod.snd this
    have hv2e : v2p = v2 := by
      have := List.inj_on_of_nodup_map (hprops r2p hr2) hv2p hv2 rfl
      exact congrArg Prod.snd this
    rw [hv1e, hnorm] at hl1
    rw [hv2e] at hl2
    exact Option.some.inj (hl1.symm.trans hl2)

/-- Concrete instantiation of `no_value_duplication`: two rectangles
whose fills are field-permuted copies of one solid color end up
referencing a single shared StyleKey, stored once in the run's table. -/
theorem no_value_duplication_witness :
    ((rawCollectList [exF]).map RawNode.id).Nodup ∧
    normalize exFillA = normalize exFillB ∧
    SimplifiedNode.mk "r1" "R1" "RECTANGLE"
        [("fills", "o(f(color:n7),f(type:s:SOLID),)")] []
      ∈ collectForest (walkChildren (depthBudget none) [exF] []).1 ∧
    SimplifiedNode.mk "r2" "R2" "RECTANGLE"
        [("fills", "o(f(color:n7),f(type:s:SOLID),)")] []
      ∈ collectForest (walkChildren (depthBudget none) [exF] []).1 ∧
    (∃ nv, ("o(f(color:n7),f(type:s:SOLID),)", nv)
      ∈ (walkChildren (depthBudget none) [exF] []).2) :=
  ⟨by simp [rawCollectList, rawCollect_unfold, RawNode.children, RawNode.id,
      exF, exR1, exR2]; try decide,
   by simp [exFillA, exFillB, normalize, normalizeList, sortFields, insertField,
      fieldName]; try decide,
   by simp [exF, exR1, exR2, exFillA, exFillB, depthBudget, walkChildren,
      simplifyNode, internProps, internValue, decrBudget, irrelevantKind,
      collectForest, collectNode, normalize, normalizeList, sortFields,
      insertField, fieldName, mintKey, encodeVal, encodeList] ; try decide,
   by simp [exF, exR1, exR2, exFillA, exFillB, depthBudget, walkChildren,
      simplifyNode, internProps, internValue, decrBudget, irrelevantKind,
      collectForest, collectNode, normalize, normalizeList, sortFields,
      insertField, fieldName, mintKey, encodeVal, encodeList] ; try decide,
   (no_value_duplication none [exF]
      (by simp [rawCollectList, rawCollect_unfold, RawNode.children, RawNode.id,
        exF, exR1, exR2]; try decide)
      (by intro r hr
          simp [rawCollectList, rawCollect_unfold, RawNode.children,
            exF, exR1, exR2] at hr
          rcases hr with rfl | rfl | rfl <;> decide)).1
     (SimplifiedNode.mk "r1" "R1" "RECTANGLE"
        [("fills", "o(f(color:n7),f(type:s:SOLID),)")] [])
     (by simp [exF, exR1, exR2, exFillA, exFillB, depthBudget, walkChildren,
        simplifyNode, internProps, internValue, decrBudget, irrelevantKind,
        collectForest, collectNode, normalize, normalizeList, sortFields,
        insertField, fieldName, mintKey, encodeVal, encodeList] ; try decide)
     "fills" "o(f(color:n7),f(type:s:SOLID),)"
     (by simp [SimplifiedNode.styleRefs])⟩

/-! ## FigmaService lemmas -/

/-- `figmaApiKey || ""` is the identity on strings. -/
theorem make_apiKey (o : FigmaAuthOptions) :
    (FigmaService.make o).apiKey = o.figmaApiKey := by
  unfold FigmaService.make
  by_cases h : o.figmaApiKey = "" <;> simp [h]

/-- `figmaOAuthToken || ""` is the identity on strings. -/
theorem make_oauthToken (o : FigmaAuthOptions) :
    (FigmaService.make o).oauthToken = o.figmaOAuthToken := by
  unfold FigmaService.make
  by_cases h : o.figmaOAuthToken = "" <;> simp [h]

/-- The effective `useOAuth` flag requires both the option and a
non-empty OAuth token. -/
theorem make_useOAuth (o : FigmaAuthOptions) :
    (FigmaService.make o).useOAuth
      = (o.useOAuth && !(o.figmaOAuthToken = "" : Bool)) := by
  unfold FigmaService.make
  by_cases h : o.figmaOAuthToken = "" <;> simp [h]

/-- Claim C9: a request carries `Authorization: Bearer <token>` exactly
when the service was constructed with `useOAuth` true and a non-empty
OAuth token; in every other case — including `useOAuth` true with an
empty token — it carries `X-Figma-Token` with the API key instead,
which may be the empty string. -/
theorem auth_header_selection (o : FigmaAuthOptions) :
    lookupHeader (requestHeaders (FigmaService.make o)) "Authorization"
      = (if o.useOAuth = true ∧ o.figmaOAuthToken ≠ "" then
          some ("Bearer " ++ o.figmaOAuthToken) else none) ∧
    lookupHeader (requestHeaders (FigmaService.make o)) "X-Figma-Token"
      = (if o.useOAuth = true ∧ o.figmaOAuthToken ≠ "" then none
         else some o.figmaApiKey) := by
  have hk := make_apiKey o
  have ht := make_oauthToken o
  have hu := make_useOAuth o
  by_cases h1 : o.useOAuth = true
  · by_cases h2 : o.figmaOAuthToken = ""
    · simp [requestHeaders, lookupHeader, hu, hk, h1, h2]
    · simp [requestHeaders, lookupHeader, hu, ht, h1, h2]
  · simp [requestHeaders, lookupHeader, hu, hk, h1]

/-- Claim C10 as stated is false on the code: `-1` is not strictly
positive, yet `depth ? `?depth=${depth}` : ""` forwards it because
every non-zero number is truthy in JavaScript. -/
theorem depth_forwarding_counterexample :
    getFileEndpoint "abc" (some (-1)) = "/files/abc?depth=-1" ∧
    getNodeEndpoint "abc" "1:2" (some (-1)) = "/files/abc/nodes?ids=1:2&depth=-1" ∧
    ¬((-1 : Int) > 0) := by
  refine ⟨?_, ?_, by decide⟩ <;> rfl

/-- Claim C10, amended: depth 0, null and undefined all yield a URL
with no depth query parameter — indistinguishable to the API — while
every non-zero depth value, positive or negative, is forwarded. -/
theorem depth_param_forwarding (fileKey nodeId : String) (d : Option Int) :
    ((d = none ∨ d = some 0) →
      getFileEndpoint fileKey d = "/files/" ++ fileKey ∧
      getNodeEndpoint fileKey nodeId d
        = "/files/" ++ fileKey ++ "/nodes?ids=" ++ nodeId) ∧
    (∀ n : Int, d = some n → n ≠ 0 →
      getFileEndpoint fileKey d
        = "/files/" ++ fileKey ++ "?depth=" ++ toString n ∧
      getNodeEndpoint fileKey nodeId d
        = "/files/" ++ fileKey ++ "/nodes?ids=" ++ nodeId ++ "&depth=" ++ toString n) := by
  constructor
  · rintro (rfl | rfl) <;>
      simp [getFileEndpoint, getNodeEndpoint, jsTruthyDepth]
  · rintro n rfl hn
    simp [getFileEndpoint, getNodeEndpoint, jsTruthyDepth, hn,
      String.append_assoc]

/-- Concrete instantiation of `depth_param_forwarding`: depth 0 is
dropped from the URL and depth 7 is forwarded. -/
theorem depth_param_forwarding_witness :
    ((some 0 = (none : Option Int) ∨ (some 0 = some (0 : Int))) ∧
      getFileEndpoint "k" (some 0) = "/files/" ++ "k" ∧
      getNodeEndpoint "k" "1:2" (some 0)
        = "/files/" ++ "k" ++ "/nodes?ids=" ++ "1:2") ∧
    ((7 : Int) ≠ 0 ∧
      getFileEndpoint "k" (some 7) = "/files/" ++ "k" ++ "?depth=" ++ toString (7 : Int) ∧
      getNodeEndpoint "k" "1:2" (some 7)
        = "/files/" ++ "k" ++ "/nodes?ids=" ++ "1:2" ++ "&depth=" ++ toString (7 : Int)) :=
  ⟨⟨Or.inr rfl,
    (depth_param_forwarding "k" "1:2" (some 0)).1 (Or.inr rfl)⟩,
   ⟨by decide,
    (depth_param_forwarding "k" "1:2" (some 7)).2 7 rfl (by decide)⟩⟩

/-- Claim C8: assembly is a pure combination — destructuring the
assembled SimplifiedDesign into `{metadata, nodes, globalVars}` recovers
exactly the three assembled parts. -/
theorem assemble_split_roundtrip (m : Metadata) (forest : List SimplifiedNode)
    (t : GlobalVariableTable) :
    splitDesign (assemble m forest t) = (m, forest, t) := by
  cases m
  rfl

/-- Claim C7: the transformation is total on any traversable input — a
malformed RawNode anywhere in a subtree never aborts the run — and it
fails, as a single terminal error with no partial result, exactly when
the raw input is not traversable at all (the document root is absent). -/
theorem parse_failfast_iff_no_root (md : Option Nat) (resp : FileResponse) :
    (resp.document = none →
      parseFileResponse md resp
        = .error "raw input is not traversable: document root is absent") ∧
    (∀ doc, resp.document = some doc →
      parseFileResponse md resp
        = .ok (assemble ⟨resp.name, resp.lastModified, resp.thumbnailUrl⟩
            (walkChildren (depthBudget md) [doc] []).1
            (walkChildren (depthBudget md) [doc] []).2)) := by
  constructor
  · intro h
    simp [parseFileResponse, h]
  · intro doc h
    simp [parseFileResponse, h]

/-- Concrete instantiation of `parse_failfast_iff_no_root`: a rootless
response fails terminally; a response whose root is a degenerate node
(empty id, no recognizable fields) still succeeds. -/
theorem parse_failfast_iff_no_root_witness :
    ((none : Option RawNode) = none ∧
      parseFileResponse none ⟨"doc", "2024", "thumb", none⟩
        = .error "raw input is not traversable: document root is absent") ∧
    ((some (RawNode.mk "" "" "" true [] []) : Option RawNode)
        = some (.mk "" "" "" true [] []) ∧
      parseFileResponse none ⟨"doc", "2024", "thumb", some (.mk "" "" "" true [] [])⟩
        = .ok (assemble ⟨"doc", "2024", "thumb"⟩
            (walkChildren (depthBudget none) [.mk "" "" "" true [] []] []).1
            (walkChildren (depthBudget none) [.mk "" "" "" true [] []] []).2)) :=
  ⟨⟨rfl, (parse_failfast_iff_no_root none ⟨"doc", "2024", "thumb", none⟩).1 rfl⟩,
   ⟨rfl, (parse_failfast_iff_no_root none
      ⟨"doc", "2024", "thumb", some (.mk "" "" "" true [] [])⟩).2 _ rfl⟩⟩

end FigmaMCP
